import Mathlib

/-!
Verification development for the chunked-transcription core of the
telegram_transcriber repository (`utils/ivritAI_utils.py`).

Python strings are modelled as `List Char`; Python floats (durations,
chunk offsets) are modelled as exact rationals `ℚ`; Python exceptions are
modelled with `Option`/`Except`.  The constants in force in the source are
the fallback values `CHUNK_SEC = 240` and `OVERLAP_SEC = 1.2` (the
`from handlers.constants import CHUNK_SEC, ...` import fails, since
`handlers/constants.py` defines no such names).
-/

/-- Python `str` values are modelled as lists of characters. -/
abbrev Str := List Char

/-- The whitespace characters stripped by Python `str.strip()` (ASCII range). -/
def pyIsSpace (c : Char) : Bool :=
  c = ' ' || c = '\t' || c = '\n' || c = '\r' || c = '\x0b' || c = '\x0c'

/-- Python `s.strip()`: remove leading and trailing whitespace. -/
def pyStrip (s : Str) : Str :=
  ((s.dropWhile pyIsSpace).reverse.dropWhile pyIsSpace).reverse

/-- Python `s[-k:]` for `1 ≤ k`: the last `min k (length s)` characters.
(The loop below only evaluates this slice for `k ≥ 1`; a Python match at
`k = 0` would set `k_found = 0`, which is indistinguishable from no match
in `_stitch_with_overlap_text`.) -/
def lastN (s : Str) (k : Nat) : Str := s.drop (s.length - k)

/-- The descending search loop of `_stitch_with_overlap_text`
(`for k in range(max_try, min_k - 1, -1): if prev[-k:] == cur[:k] ...`),
returning the Python loop's final `k_found`. -/
def findOverlap (prev cur : Str) (min_k : Nat) : Nat → Nat
  | 0 => 0
  | k + 1 =>
    if k + 1 < min_k then 0
    else if lastN prev (k + 1) = List.take (k + 1) cur then k + 1
    else findOverlap prev cur min_k k

/-- The merge step `out[-1] = prev + ("" if k_found else " ") + cur[k_found:]`
of `_stitch_with_overlap_text`, with `k_found` searched over
`k ≤ min(max_k, len(prev), len(cur))`. -/
def mergeStep (min_k max_k : Nat) (prev cur : Str) : Str :=
  let maxTry := min max_k (min prev.length cur.length)
  let kf := findOverlap prev cur min_k maxTry
  prev ++ (if kf = 0 then [' '] else []) ++ cur.drop kf

/-- The loop of `_stitch_with_overlap_text`.  `out[-1]` on an empty `out`
is a Python `IndexError`, modelled as `none`. -/
def stitchLoop (min_k max_k : Nat) : List Str → Nat → List Str → Option (List Str)
  | [], _, out => some out
  | txt :: rest, i, out =>
    let cur := pyStrip txt
    if cur = [] then stitchLoop min_k max_k rest (i + 1) out
    else if i = 0 then stitchLoop min_k max_k rest (i + 1) (out ++ [cur])
    else
      match out.getLast? with
      | none => none
      | some prev =>
          stitchLoop min_k max_k rest (i + 1) (out.dropLast ++ [mergeStep min_k max_k prev cur])

/-- Python `"\n".join(out)`. -/
def joinNewline : List Str → Str
  | [] => []
  | [s] => s
  | s :: t :: rest => s ++ '\n' :: joinNewline (t :: rest)

/-- Model of `_stitch_with_overlap_text(chunks_texts, min_k, max_k)`:
run the loop from index 0 with an empty accumulator and return
`"\n".join(out).strip()`; `none` models an uncaught `IndexError`. -/
def stitchWithOverlapText (min_k max_k : Nat) (texts : List Str) : Option Str :=
  (stitchLoop min_k max_k texts 0 []).map (fun out => pyStrip (joinNewline out))

/-- The stitcher `_stitch_with_overlap_text` at its default parameters `min_k=10, max_k=80`,
which is how `transcribe_audio` invokes it. -/
def stitchDefaults (texts : List Str) : Option Str := stitchWithOverlapText 10 80 texts

/-- The probe window of the merge step: `max_try = min(max_k, len(prev), len(cur))`. -/
def maxProbe (max_k : Nat) (prev cur : Str) : Nat :=
  min max_k (min prev.length cur.length)

/-- A length `k` is an admissible overlap: at least `min_k`, and the last `k`
characters of `prev` equal the first `k` characters of `cur`. -/
def overlapP (prev cur : Str) (min_k : Nat) (k : Nat) : Prop :=
  min_k ≤ k ∧ lastN prev k = List.take k cur

instance overlapPDec (prev cur : Str) (min_k : Nat) : DecidablePred (overlapP prev cur min_k) :=
  fun k => inferInstanceAs (Decidable (min_k ≤ k ∧ lastN prev k = List.take k cur))

/-- The greatest admissible overlap within the probe window (0 when none exists). -/
def bestOverlap (min_k max_k : Nat) (prev cur : Str) : Nat :=
  Nat.findGreatest (overlapP prev cur min_k) (maxProbe max_k prev cur)

/-- The downward-scanning loop finds exactly the greatest admissible overlap. -/
lemma findOverlap_eq_findGreatest (prev cur : Str) (min_k : Nat) :
    ∀ n, findOverlap prev cur min_k n = Nat.findGreatest (overlapP prev cur min_k) n := by
  intro n
  induction n with
  | zero => rfl
  | succ k ih =>
    rw [findOverlap, Nat.findGreatest_succ]
    by_cases h1 : k + 1 < min_k
    · rw [if_pos h1, if_neg (fun hp : overlapP prev cur min_k (k + 1) => absurd hp.1 (by omega))]
      symm
      rw [Nat.findGreatest_eq_zero_iff]
      exact fun m _ hmk hp => absurd hp.1 (by omega)
    · rw [if_neg h1]
      by_cases h2 : lastN prev (k + 1) = List.take (k + 1) cur
      · rw [if_pos h2, if_pos ⟨by omega, h2⟩]
      · rw [if_neg h2, if_neg (fun hp : overlapP prev cur min_k (k + 1) => h2 hp.2), ih]

/-- C1: for every accumulator text `prev` and non-empty chunk text `cur`, the
stitcher searches `k` downward from `min(max_k, len(prev), len(cur))` to `min_k`
for the largest `k` with `prev[-k:] == cur[:k]`.  If such a `k` exists, it
appends exactly `cur[k:]` (for the greatest such `k`) with no separator;
if none exists it appends exactly one space followed by the whole of `cur`. -/
theorem stitch_merge_overlap_spec (prev cur : Str) (min_k max_k : Nat)
    (hmin : 1 ≤ min_k) (_hcur : cur ≠ []) :
    ((∃ k, min_k ≤ k ∧ k ≤ maxProbe max_k prev cur ∧ lastN prev k = List.take k cur) →
        mergeStep min_k max_k prev cur
            = prev ++ List.drop (bestOverlap min_k max_k prev cur) cur
        ∧ overlapP prev cur min_k (bestOverlap min_k max_k prev cur)
        ∧ ∀ j ≤ maxProbe max_k prev cur,
            bestOverlap min_k max_k prev cur < j → ¬ overlapP prev cur min_k j)
    ∧ ((∀ k ≤ maxProbe max_k prev cur, min_k ≤ k → lastN prev k ≠ List.take k cur) →
        mergeStep min_k max_k prev cur = prev ++ ' ' :: cur) := by
  have hfo : findOverlap prev cur min_k (maxProbe max_k prev cur)
      = bestOverlap min_k max_k prev cur :=
    findOverlap_eq_findGreatest prev cur min_k _
  constructor
  · rintro ⟨k, hk1, hk2, hk3⟩
    have hPk : overlapP prev cur min_k k := ⟨hk1, hk3⟩
    have hle : k ≤ bestOverlap min_k max_k prev cur := Nat.le_findGreatest hk2 hPk
    have h0 : bestOverlap min_k max_k prev cur ≠ 0 := by omega
    refine ⟨?_, ?_, ?_⟩
    · show prev ++ (if findOverlap prev cur min_k (maxProbe max_k prev cur) = 0
          then [' '] else []) ++ cur.drop (findOverlap prev cur min_k (maxProbe max_k prev cur))
        = prev ++ List.drop (bestOverlap min_k max_k prev cur) cur
      rw [hfo, if_neg h0, List.append_nil]
    · exact Nat.findGreatest_spec hk2 hPk
    · exact fun j hj1 hj2 => Nat.findGreatest_is_greatest hj2 hj1
  · intro hnone
    have hz : bestOverlap min_k max_k prev cur = 0 := by
      rw [bestOverlap, Nat.findGreatest_eq_zero_iff]
      exact fun m _ hm2 hp => hnone m hm2 hp.1 hp.2
    show prev ++ (if findOverlap prev cur min_k (maxProbe max_k prev cur) = 0
        then [' '] else []) ++ cur.drop (findOverlap prev cur min_k (maxProbe max_k prev cur))
      = prev ++ ' ' :: cur
    rw [hfo, hz, if_pos rfl, List.drop_zero, List.append_assoc, List.singleton_append]

/-- Witness for C1: the spec's two worked examples, via `stitch_merge_overlap_spec`:
overlap "world today" (11 chars) appears exactly once, and "foo"/"bar" are joined
by exactly one space. -/
theorem stitch_merge_overlap_spec_witness :
    mergeStep 10 80 ("hello world today".toList) ("world today we begin".toList)
        = ("hello world today we begin".toList)
    ∧ mergeStep 10 80 ("foo".toList) ("bar".toList) = ("foo bar".toList) := by
  constructor
  · have h := (stitch_merge_overlap_spec ("hello world today".toList)
      ("world today we begin".toList) 10 80 (by decide) (by decide)).1
      ⟨11, by decide, by decide, by decide⟩
    rw [h.1]; decide
  · have h := (stitch_merge_overlap_spec ("foo".toList) ("bar".toList) 10 80
      (by decide) (by decide)).2 (by decide)
    rw [h]; decide

/-- C2 (failing input): `_stitch_with_overlap_text` crashes (Python `IndexError`
at `out[-1]`, modelled as `none`) when the first chunk text is empty and a later
chunk text is non-empty, instead of initializing the accumulator to the first
non-empty chunk's text. -/
theorem stitch_empty_first_chunk_crashes :
    stitchDefaults [[], "hello world".toList] = none := by decide

/-- C10 counterexample: a whitespace-only first element is non-empty as a string,
yet the stitcher crashes (`none`): the accumulator never holds exactly one
element and no transcript is returned. -/
theorem stitch_first_element_nonempty_not_enough :
    ([' '] : Str) ≠ [] ∧ stitchDefaults [[' '], "x".toList] = none := by decide

/-- Once the accumulator is a singleton, every later iteration keeps it a singleton. -/
lemma stitchLoop_singleton (min_k max_k : Nat) :
    ∀ (l : List Str) (i : Nat) (a : Str),
      ∃ b, stitchLoop min_k max_k l (i + 1) [a] = some [b] := by
  intro l
  induction l with
  | nil => exact fun i a => ⟨a, rfl⟩
  | cons txt rest ih =>
    intro i a
    by_cases h : pyStrip txt = []
    · have : stitchLoop min_k max_k (txt :: rest) (i + 1) [a]
          = stitchLoop min_k max_k rest (i + 2) [a] := by
        simp [stitchLoop, h]
      rw [this]; exact ih (i + 1) a
    · have : stitchLoop min_k max_k (txt :: rest) (i + 1) [a]
          = stitchLoop min_k max_k rest (i + 2) [mergeStep min_k max_k a (pyStrip txt)] := by
        simp [stitchLoop, h]
      rw [this]; exact ih (i + 1) _

/-- C10 (amended): for every input list whose first element is non-empty *after
stripping*, the accumulator holds exactly one element at the end of the loop,
and the final newline-join over the accumulator inserts no newline: the returned
transcript is exactly the stripped single accumulator element. -/
theorem stitch_single_group_invariant (min_k max_k : Nat) (t : Str) (rest : List Str)
    (h : pyStrip t ≠ []) :
    (stitchLoop min_k max_k (t :: rest) 0 []).map List.length = some 1
    ∧ stitchWithOverlapText min_k max_k (t :: rest)
        = ((stitchLoop min_k max_k (t :: rest) 0 []).bind List.head?).map pyStrip := by
  have h0 : stitchLoop min_k max_k (t :: rest) 0 [] = stitchLoop min_k max_k rest 1 [pyStrip t] := by
    simp [stitchLoop, h]
  obtain ⟨b, hb⟩ := stitchLoop_singleton min_k max_k rest 0 (pyStrip t)
  rw [stitchWithOverlapText, h0, hb]
  exact ⟨rfl, rfl⟩

/-- Witness for C10 (amended) at a concrete two-chunk input. -/
theorem stitch_single_group_invariant_witness :
    pyStrip ("hello".toList) ≠ []
    ∧ (stitchLoop 10 80 ["hello".toList, "world".toList] 0 []).map List.length = some 1
    ∧ stitchWithOverlapText 10 80 ["hello".toList, "world".toList]
        = ((stitchLoop 10 80 ["hello".toList, "world".toList] 0 []).bind List.head?).map pyStrip :=
  ⟨by decide, stitch_single_group_invariant 10 80 ("hello".toList) ["world".toList] (by decide)⟩

/-!  Python values that `model.transcribe()` may return, as consumed by
`_extract_text_safe`.  `pybytes` carries the text its UTF-8
`decode(..., errors="ignore")` produces; `pyobj` is any other
(non-iterable, truthy) object carrying its `str()` rendering. -/

inductive PyVal where
  | pystr (s : Str)
  | pyint (n : Int)
  | pybytes (s : Str)
  | pydict (entries : List (Str × PyVal))
  | pylist (items : List PyVal)
  | pynone
  | pyobj (s : Str)

/-- Python truthiness for the modelled values. -/
def pyTruthy : PyVal → Bool
  | .pystr s => !s.isEmpty
  | .pyint n => n != 0
  | .pybytes s => !s.isEmpty
  | .pydict e => !e.isEmpty
  | .pylist l => !l.isEmpty
  | .pynone => false
  | .pyobj _ => true

/-- Python `str(v)`.  Renderings of containers and foreign objects are
abstracted (no claim depends on their exact spelling); strings, integers and
`None` render as in Python. -/
def pyStr : PyVal → Str
  | .pystr s => s
  | .pyint n => (toString n).toList
  | .pybytes s => 'b' :: s
  | .pydict _ => "dict".toList
  | .pylist _ => "list".toList
  | .pynone => "None".toList
  | .pyobj s => s

/-- The guard `raw_result or ...` (empty dict default) as applied by `transcribe_audio` to each ASR result. -/
def pyOrEmptyDict (raw : PyVal) : PyVal :=
  if pyTruthy raw then raw else .pydict []

/-- Per-item normalization inside the iterable branch of `_extract_text_safe`:
dict items go through `str(item.get("text", "")).strip()`, strings and bytes
are stripped, anything else through `str(item).strip()`. -/
def itemText : PyVal → Str
  | .pydict entries => pyStrip (pyStr ((entries.lookup ("text".toList)).getD (.pystr [])))
  | .pystr s => pyStrip s
  | .pybytes s => pyStrip s
  | item => pyStrip (pyStr item)

/-- Python `" ".join(parts)`. -/
def joinSpace : List Str → Str
  | [] => []
  | [s] => s
  | s :: t :: rest => s ++ ' ' :: joinSpace (t :: rest)

/-- Model of `_extract_text_safe(result)`.  The branches follow the source order:
dict, str, bytes, iterable, fallback.  `.error ()` models an uncaught Python
exception: in the dict branch, `(txt or "").strip()` raises `AttributeError`
when the `"text"` value is truthy but has no `.strip()` method. -/
def extractTextSafe (result : PyVal) : Except Unit Str :=
  match result with
  | .pydict entries =>
      let txt := (entries.lookup ("text".toList)).getD (.pystr [])
      match (if pyTruthy txt then txt else .pystr []) with
      | .pystr s => .ok (pyStrip s)
      | .pybytes s => .ok (pyStrip s)
      | _ => .error ()
  | .pystr s => .ok (pyStrip s)
  | .pybytes s => .ok (pyStrip s)
  | .pylist items =>
      .ok (pyStrip (joinSpace ((items.map itemText).filter (fun p => !p.isEmpty))))
  | r => .ok (pyStrip (pyStr (if pyTruthy r then r else .pystr [])))

/-- C5 (failing input): `_extract_text_safe` is not total — on the mapping
`\x7b"text": 123\x7d` the dict branch evaluates `(123).strip()` and raises
`AttributeError` instead of degrading to a plain-text rendering. -/
theorem extract_text_dict_nonstring_raises :
    extractTextSafe (.pydict [("text".toList, .pyint 123)]) = .error () := rfl

/-!  Durations and chunk offsets.  Python floats are modelled as exact
rationals.  The constants in force are the fallback values of
`utils/ivritAI_utils.py` (its `from handlers.constants import ...` raises,
since `handlers/constants.py` defines none of the imported names). -/

def CHUNK_SEC : ℚ := 240

def OVERLAP_SEC : ℚ := 6 / 5

/-- The stride `step = max(1.0, chunk_sec - overlap_sec)` in `_split_with_overlap`. -/
def chunkStep (cs ov : ℚ) : ℚ := max 1 (cs - ov)

lemma one_le_chunkStep (cs ov : ℚ) : 1 ≤ chunkStep cs ov := le_max_left 1 _

lemma chunkStep_pos (cs ov : ℚ) : 0 < chunkStep cs ov :=
  lt_of_lt_of_le one_pos (one_le_chunkStep cs ov)

/-- The offset loop of `_split_with_overlap`:
`t = 0.0; while t < dur: starts.append(t); t += step`. -/
def startsFrom (dur cs ov t : ℚ) : List ℚ :=
  if _h : t < dur then t :: startsFrom dur cs ov (t + chunkStep cs ov) else []
termination_by (⌈dur - t⌉).toNat
decreasing_by
  have hs := one_le_chunkStep cs ov
  have h1 : (0 : ℚ) < dur - t := by linarith
  have h2 : ⌈dur - (t + chunkStep cs ov)⌉ ≤ ⌈dur - t - 1⌉ := Int.ceil_le_ceil (by linarith)
  have h3 : ⌈dur - t - 1⌉ = ⌈dur - t⌉ - 1 := Int.ceil_sub_one _
  have h4 : 0 < ⌈dur - t⌉ := Int.ceil_pos.mpr h1
  omega

/-- All chunk start offsets generated for a given duration. -/
def chunkStarts (dur cs ov : ℚ) : List ℚ := startsFrom dur cs ov 0

lemma startsFrom_unfold (dur cs ov t : ℚ) :
    startsFrom dur cs ov t
      = if t < dur then t :: startsFrom dur cs ov (t + chunkStep cs ov) else [] := by
  rw [startsFrom]
  by_cases h : t < dur
  · rw [dif_pos h, if_pos h]
  · rw [dif_neg h, if_neg h]

lemma ceil_div_nonpos (x s : ℚ) (hx : x ≤ 0) (hs : 0 < s) : ⌈x / s⌉ ≤ 0 := by
  have : x / s ≤ 0 := div_nonpos_iff.mpr (Or.inr ⟨hx, le_of_lt hs⟩)
  exact_mod_cast Int.ceil_le.mpr (by exact_mod_cast this)

/-- The loop produces exactly `⌈(dur − t) / step⌉` offsets (0 when `t ≥ dur`). -/
lemma startsFrom_length (dur cs ov : ℚ) :
    ∀ (n : Nat) (t : ℚ), (⌈dur - t⌉).toNat ≤ n →
      (startsFrom dur cs ov t).length = (⌈(dur - t) / chunkStep cs ov⌉).toNat := by
  intro n
  induction n with
  | zero =>
    intro t ht
    have h0 : ⌈dur - t⌉ ≤ 0 := by omega
    have hle : dur - t ≤ 0 := by
      have := Int.ceil_le.mp h0
      exact_mod_cast this
    have hnd : ¬ t < dur := by linarith
    rw [startsFrom_unfold, if_neg hnd, List.length_nil]
    have := ceil_div_nonpos (dur - t) (chunkStep cs ov) hle (chunkStep_pos cs ov)
    omega
  | succ n ih =>
    intro t ht
    by_cases h : t < dur
    · have hs := one_le_chunkStep cs ov
      have hs0 := chunkStep_pos cs ov
      have hdec : (⌈dur - (t + chunkStep cs ov)⌉).toNat ≤ n := by
        have h2 : ⌈dur - (t + chunkStep cs ov)⌉ ≤ ⌈dur - t - 1⌉ :=
          Int.ceil_le_ceil (by linarith)
        have h3 : ⌈dur - t - 1⌉ = ⌈dur - t⌉ - 1 := Int.ceil_sub_one _
        omega
      rw [startsFrom_unfold, if_pos h, List.length_cons, ih _ hdec]
      have hdiv : (dur - (t + chunkStep cs ov)) / chunkStep cs ov
          = (dur - t) / chunkStep cs ov - 1 := by
        field_simp
        ring
      have hpos : 0 < (dur - t) / chunkStep cs ov := div_pos (by linarith) hs0
      have hc1 : 0 < ⌈(dur - t) / chunkStep cs ov⌉ := Int.ceil_pos.mpr hpos
      rw [hdiv, Int.ceil_sub_one]
      omega
    · rw [startsFrom_unfold, if_neg h, List.length_nil]
      have hle : dur - t ≤ 0 := by linarith
      have := ceil_div_nonpos (dur - t) (chunkStep cs ov) hle (chunkStep_pos cs ov)
      omega

/-- The number of chunk files (and hence of per-chunk ASR calls on the success
path) is `⌈dur / step⌉` (as a natural number). -/
lemma chunkStarts_length (dur cs ov : ℚ) :
    (chunkStarts dur cs ov).length = (⌈dur / chunkStep cs ov⌉).toNat := by
  have h := startsFrom_length dur cs ov (⌈dur - 0⌉).toNat 0 le_rfl
  simpa using h

/-- The offsets generated are exactly the multiples `k·step` below `dur` that
are at least `t`. -/
lemma startsFrom_mem (dur cs ov : ℚ) :
    ∀ (n : Nat) (t : ℚ), (⌈dur - t⌉).toNat ≤ n →
      ∀ x : ℚ, x ∈ startsFrom dur cs ov t
        ↔ (∃ k : ℕ, x = t + k * chunkStep cs ov) ∧ x < dur := by
  intro n
  induction n with
  | zero =>
    intro t ht x
    have h0 : ⌈dur - t⌉ ≤ 0 := by omega
    have hle : dur - t ≤ 0 := by
      have := Int.ceil_le.mp h0
      exact_mod_cast this
    have hnd : ¬ t < dur := by linarith
    rw [startsFrom_unfold, if_neg hnd]
    simp only [List.not_mem_nil, false_iff]
    rintro ⟨⟨k, rfl⟩, hx⟩
    have hk : (0 : ℚ) ≤ (k : ℚ) * chunkStep cs ov :=
      mul_nonneg (Nat.cast_nonneg k) (le_of_lt (chunkStep_pos cs ov))
    linarith
  | succ n ih =>
    intro t ht x
    have hs := one_le_chunkStep cs ov
    have hs0 := chunkStep_pos cs ov
    by_cases h : t < dur
    · have hdec : (⌈dur - (t + chunkStep cs ov)⌉).toNat ≤ n := by
        have h2 : ⌈dur - (t + chunkStep cs ov)⌉ ≤ ⌈dur - t - 1⌉ :=
          Int.ceil_le_ceil (by linarith)
        have h3 : ⌈dur - t - 1⌉ = ⌈dur - t⌉ - 1 := Int.ceil_sub_one _
        omega
      rw [startsFrom_unfold, if_pos h, List.mem_cons, ih _ hdec x]
      constructor
      · rintro (rfl | ⟨⟨k, rfl⟩, hx⟩)
        · exact ⟨⟨0, by push_cast; ring⟩, h⟩
        · exact ⟨⟨k + 1, by push_cast; ring⟩, hx⟩
      · rintro ⟨⟨k, rfl⟩, hx⟩
        cases k with
        | zero => left; push_cast; ring
        | succ k =>
          right
          refine ⟨⟨k, by push_cast; ring⟩, hx⟩
    · rw [startsFrom_unfold, if_neg h]
      simp only [List.not_mem_nil, false_iff]
      rintro ⟨⟨k, rfl⟩, hx⟩
      have hk : (0 : ℚ) ≤ (k : ℚ) * chunkStep cs ov :=
        mul_nonneg (Nat.cast_nonneg k) (le_of_lt hs0)
      linarith

/-- C7: for every duration `D > chunk_budget_seconds`, the number of chunks
generated equals `ceil((D − overlap) / (budget − overlap))` to within ±1, and
the chunk start offsets are exactly the multiples `0, step, 2·step, …` below
`D`, with `step = max(1.0, budget − overlap)`.  The hypotheses
`1 ≤ cs − ov` and `ov ≤ cs − ov` hold for the constants in force
(`cs = 240`, `ov = 1.2`). -/
theorem chunk_count_formula (cs ov D : ℚ)
    (h0 : 0 ≤ ov) (h1 : 1 ≤ cs - ov) (h2 : ov ≤ cs - ov) (hD : cs < D) :
    |(((chunkStarts D cs ov).length : ℤ) - ⌈(D - ov) / (cs - ov)⌉)| ≤ 1
    ∧ ∀ x : ℚ, x ∈ chunkStarts D cs ov
        ↔ (∃ k : ℕ, x = k * chunkStep cs ov) ∧ x < D := by
  have hstep : chunkStep cs ov = cs - ov := max_eq_right h1
  have hs0 : (0 : ℚ) < cs - ov := by linarith
  constructor
  · have hNat := chunkStarts_length D cs ov
    have hDpos : (0 : ℚ) < D := by linarith
    have hpos : 0 < ⌈D / chunkStep cs ov⌉ := by
      rw [hstep]
      exact Int.ceil_pos.mpr (div_pos hDpos hs0)
    have hcast : (((chunkStarts D cs ov).length : ℤ)) = ⌈D / (cs - ov)⌉ := by
      rw [hNat, hstep]
      rw [hstep] at hpos
      omega
    have hmono : ⌈(D - ov) / (cs - ov)⌉ ≤ ⌈D / (cs - ov)⌉ :=
      Int.ceil_le_ceil ((div_le_div_iff_of_pos_right hs0).mpr (by linarith))
    have hup : ⌈D / (cs - ov)⌉ ≤ ⌈(D - ov) / (cs - ov)⌉ + 1 := by
      have hd : D / (cs - ov) ≤ (D - ov) / (cs - ov) + 1 := by
        rw [div_add' _ _ _ (ne_of_gt hs0)]
        exact (div_le_div_iff_of_pos_right hs0).mpr (by linarith)
      calc ⌈D / (cs - ov)⌉ ≤ ⌈(D - ov) / (cs - ov) + 1⌉ := Int.ceil_le_ceil hd
        _ = ⌈(D - ov) / (cs - ov)⌉ + 1 := Int.ceil_add_one _
    rw [hcast, abs_le]
    omega
  · intro x
    have h := startsFrom_mem D cs ov (⌈D - 0⌉).toNat 0 le_rfl x
    simpa using h

/-- Witness for C7 at the constants in force and `D = 500`. -/
theorem chunk_count_formula_witness :
    (0 : ℚ) ≤ 6 / 5 ∧ (1 : ℚ) ≤ 240 - 6 / 5 ∧ (6 / 5 : ℚ) ≤ 240 - 6 / 5 ∧ (240 : ℚ) < 500
    ∧ |(((chunkStarts 500 240 (6 / 5)).length : ℤ) - ⌈((500 : ℚ) - 6 / 5) / (240 - 6 / 5)⌉)| ≤ 1 :=
  ⟨by norm_num, by norm_num, by norm_num, by norm_num,
    (chunk_count_formula 240 (6 / 5) 500 (by norm_num) (by norm_num) (by norm_num)
      (by norm_num)).1⟩

/-!  Observable events and outcome of one `transcribe_audio` call.  The
environment packages the collaborators: the probed duration, the ASR result
for the whole file and for each chunk index, whether each chunk's ffmpeg
extraction succeeds, and the optional progress callback (whose result models
whether the callback raises). -/

inductive Ev where
  | asrWhole
  | extract (i : Nat)
  | progress (i total : Nat)
  | asrStart (i : Nat)
  | asrDone (i : Nat)
deriving DecidableEq

/-- Events that are calls to the ASR collaborator. -/
def isAsrCallEv : Ev → Bool
  | .asrWhole => true
  | .asrStart _ => true
  | _ => false

/-- Events that create a temporary chunk file. -/
def isExtractEv : Ev → Bool
  | .extract _ => true
  | _ => false

structure AsrEnv where
  dur : ℚ
  asrWhole : Except Unit PyVal
  asrChunk : Nat → Except Unit PyVal
  extractOk : Nat → Bool
  cb : Option (Nat → Nat → Except Unit Unit)

inductive TErr where
  | asrWholeFailed
  | extractionFailed (i : Nat)
  | asrChunkFailed (i total : Nat)
  | textExtractFailed
  | stitchIndexError
deriving DecidableEq

/-- Outcome of one `transcribe_audio` call: the event trace, the returned
text or raised error, and the temporary chunk files left on disk at exit. -/
structure TOut where
  trace : List Ev
  res : Except TErr Str
  files : List Nat

/-- The per-chunk ffmpeg loop of `_split_with_overlap`, by chunk index.
A `check_call` failure raises, with the chunk files created so far left on
disk (the error carries them). -/
def splitLoop (extractOk : Nat → Bool) :
    List Nat → List Nat → List Ev → List Ev × Except (Nat × List Nat) (List Nat)
  | [], files, tr => (tr, .ok files)
  | i :: rest, files, tr =>
    if extractOk i then splitLoop extractOk rest (files ++ [i]) (tr ++ [Ev.extract i])
    else (tr, .error (i, files))

/-- The guarded invocation `if progress_cb: (try: progress_cb(i, total) except Exception: pass)`:
the invocation is recorded; its outcome is discarded either way (the two
match arms are identical, mirroring the `except ... pass`). -/
def cbCall (cb : Option (Nat → Nat → Except Unit Unit)) (i total : Nat) : List Ev :=
  match cb with
  | none => []
  | some f =>
    match f i total with
    | .ok _ => [Ev.progress i total]
    | .error _ => [Ev.progress i total]

inductive ChunkErr where
  | asrFail (i total : Nat)
  | textFail

/-- The chunk loop of `transcribe_audio` (`for i, ch in enumerate(chunks, 1)`):
invoke the callback, call the ASR on the chunk, normalize its result. -/
def asrLoop (env : AsrEnv) (total : Nat) :
    List Nat → Nat → List Str → List Ev → List Ev × Except ChunkErr (List Str)
  | [], _, texts, tr => (tr, .ok texts)
  | ch :: rest, c, texts, tr =>
    let tr1 := tr ++ cbCall env.cb c total ++ [Ev.asrStart c]
    match env.asrChunk ch with
    | .error _ => (tr1, .error (.asrFail c total))
    | .ok raw =>
      match extractTextSafe (pyOrEmptyDict raw) with
      | .error _ => (tr1 ++ [Ev.asrDone c], .error .textFail)
      | .ok s => asrLoop env total rest (c + 1) (texts ++ [s]) (tr1 ++ [Ev.asrDone c])

/-- The chunking path of `transcribe_audio` (lines 213-246 of the source):
split, transcribe each chunk, stitch and clean up.  A per-chunk ASR failure
removes the temporary directory before raising; a split failure, a
normalization failure or a stitching `IndexError` propagates with the chunk
files still on disk. -/
def chunkedPath (env : AsrEnv) (total : Nat) : TOut :=
  match splitLoop env.extractOk (List.range total) [] [] with
  | (tr, .error p) => ⟨tr, .error (.extractionFailed p.1), p.2⟩
  | (tr, .ok files) =>
    let r := asrLoop env total files 1 [] tr
    match r.2 with
    | .error (.asrFail i tot) => ⟨r.1, .error (.asrChunkFailed i tot), []⟩
    | .error .textFail => ⟨r.1, .error .textExtractFailed, files⟩
    | .ok texts =>
      match stitchDefaults texts with
      | none => ⟨r.1, .error .stitchIndexError, files⟩
      | some s => ⟨r.1, .ok s, []⟩

/-- Model of `transcribe_audio(path, language, progress_cb)`: one-shot ASR for
durations within the budget, the chunking path otherwise. -/
def transcribeModel (env : AsrEnv) (cs ov : ℚ) : TOut :=
  if env.dur ≤ cs then
    match env.asrWhole with
    | .error _ => ⟨[Ev.asrWhole], .error .asrWholeFailed, []⟩
    | .ok raw =>
      match extractTextSafe (pyOrEmptyDict raw) with
      | .error _ => ⟨[Ev.asrWhole], .error .textExtractFailed, []⟩
      | .ok s => ⟨[Ev.asrWhole], .ok s, []⟩
  else chunkedPath env (chunkStarts env.dur cs ov).length

/-- The error strings raised by `transcribe_audio` (file names and the
wrapped exception text are abstracted; the chunk-counter rendering follows
the source format string). -/
def errMsg : TErr → Str
  | .asrWholeFailed => "Transcription failed for the audio file".toList
  | .extractionFailed i => "ffmpeg failed for chunk ".toList ++ (Nat.repr i).toList
  | .asrChunkFailed i total =>
      "Transcription failed for chunk ".toList ++ (Nat.repr i).toList
        ++ '/' :: (Nat.repr total).toList ++ " (chunk file): error".toList
  | .textExtractFailed => "AttributeError".toList
  | .stitchIndexError => "IndexError".toList

/-- On a string ASR result, `raw or {}` followed by `_extract_text_safe`
always yields the trimmed string (also when the string is empty). -/
lemma extractTextSafe_orEmpty_pystr (s : Str) :
    extractTextSafe (pyOrEmptyDict (.pystr s)) = .ok (pyStrip s) := by
  by_cases h : s.isEmpty
  · have hs : s = [] := List.isEmpty_iff.mp h
    subst hs
    rfl
  · have ht : pyTruthy (.pystr s) = true := by simp [pyTruthy, h]
    simp [pyOrEmptyDict, ht, extractTextSafe]

lemma transcribeModel_short_err (env : AsrEnv) (cs ov : ℚ) (hD : env.dur ≤ cs)
    (e : Unit) (hw : env.asrWhole = .error e) :
    transcribeModel env cs ov = ⟨[Ev.asrWhole], .error .asrWholeFailed, []⟩ := by
  unfold transcribeModel
  rw [if_pos hD]
  simp only [hw]

lemma transcribeModel_short_badtext (env : AsrEnv) (cs ov : ℚ) (hD : env.dur ≤ cs)
    (raw : PyVal) (u : Unit) (hw : env.asrWhole = .ok raw)
    (hx : extractTextSafe (pyOrEmptyDict raw) = .error u) :
    transcribeModel env cs ov = ⟨[Ev.asrWhole], .error .textExtractFailed, []⟩ := by
  unfold transcribeModel
  rw [if_pos hD]
  simp only [hw, hx]

lemma transcribeModel_short_ok (env : AsrEnv) (cs ov : ℚ) (hD : env.dur ≤ cs)
    (raw : PyVal) (s : Str) (hw : env.asrWhole = .ok raw)
    (hx : extractTextSafe (pyOrEmptyDict raw) = .ok s) :
    transcribeModel env cs ov = ⟨[Ev.asrWhole], .ok s, []⟩ := by
  unfold transcribeModel
  rw [if_pos hD]
  simp only [hw, hx]

/-- C6: for every audio source whose probed duration is within the chunk
budget, `transcribe` makes exactly one ASR call, creates no temporary chunk
files, and returns the call's result normalized to a trimmed string — for a
string result, exactly the trimmed string. -/
theorem short_input_single_call (env : AsrEnv) (cs ov : ℚ) (hD : env.dur ≤ cs) :
    (transcribeModel env cs ov).trace.countP isAsrCallEv = 1
    ∧ (transcribeModel env cs ov).trace.countP isExtractEv = 0
    ∧ (transcribeModel env cs ov).files = []
    ∧ (∀ raw s, env.asrWhole = .ok raw → extractTextSafe (pyOrEmptyDict raw) = .ok s →
        (transcribeModel env cs ov).res = .ok s)
    ∧ (∀ s, env.asrWhole = .ok (.pystr s) →
        (transcribeModel env cs ov).res = .ok (pyStrip s)) := by
  rcases hw : env.asrWhole with e | raw
  · have hT := transcribeModel_short_err env cs ov hD e hw
    refine ⟨by rw [hT]; rfl, by rw [hT]; rfl, by rw [hT], ?_, ?_⟩
    · intro raw s h1 _
      exact absurd h1 (by simp)
    · intro s h1
      exact absurd h1 (by simp)
  · rcases hx : extractTextSafe (pyOrEmptyDict raw) with u | s0
    · have hT := transcribeModel_short_badtext env cs ov hD raw u hw hx
      refine ⟨by rw [hT]; rfl, by rw [hT]; rfl, by rw [hT], ?_, ?_⟩
      · intro raw2 s h1 h2
        injection h1 with h1
        subst h1
        rw [hx] at h2
        exact absurd h2 (by simp)
      · intro s h1
        injection h1 with h1
        subst h1
        rw [extractTextSafe_orEmpty_pystr] at hx
        exact absurd hx (by simp)
    · have hT := transcribeModel_short_ok env cs ov hD raw s0 hw hx
      refine ⟨by rw [hT]; rfl, by rw [hT]; rfl, by rw [hT], ?_, ?_⟩
      · intro raw2 s h1 h2
        injection h1 with h1
        subst h1
        rw [hx] at h2
        injection h2 with h2
        rw [hT, h2]
      · intro s h1
        injection h1 with h1
        subst h1
        rw [extractTextSafe_orEmpty_pystr] at hx
        injection hx with hx
        rw [hT]
        exact congrArg Except.ok hx.symm

def envWShort : AsrEnv :=
  ⟨100, .ok (.pystr ("  hi there  ".toList)), fun _ => .ok (.pystr []), fun _ => true, none⟩

/-- Witness for C6 at a 100-second source whose ASR returns a padded string. -/
theorem short_input_single_call_witness :
    envWShort.dur ≤ (240 : ℚ)
    ∧ (transcribeModel envWShort 240 (6 / 5)).trace.countP isAsrCallEv = 1
    ∧ (transcribeModel envWShort 240 (6 / 5)).files = []
    ∧ (transcribeModel envWShort 240 (6 / 5)).res = .ok ("hi there".toList) := by
  have h := short_input_single_call envWShort 240 (6 / 5) (by norm_num [envWShort])
  refine ⟨by norm_num [envWShort], h.1, h.2.2.1, ?_⟩
  have h5 := h.2.2.2.2 ("  hi there  ".toList) rfl
  rw [h5]
  exact congrArg Except.ok (by decide)

/-- The result of the chunk loop does not depend on the callback nor on the
trace accumulated so far — a raising callback is swallowed by the
`try/except pass` and never aborts the loop. -/
lemma asrLoop_snd_ext (env env' : AsrEnv) (total : Nat)
    (hchunk : env.asrChunk = env'.asrChunk) :
    ∀ (l : List Nat) (c : Nat) (texts : List Str) (tr tr' : List Ev),
      (asrLoop env total l c texts tr).2 = (asrLoop env' total l c texts tr').2 := by
  intro l
  induction l with
  | nil => intro c texts tr tr'; rfl
  | cons ch rest ih =>
    intro c texts tr tr'
    simp only [asrLoop, hchunk]
    rcases h : env'.asrChunk ch with e | raw
    · simp only [h]
    · simp only [h]
      rcases hx : extractTextSafe (pyOrEmptyDict raw) with u | s
      · simp only [hx]
      · simp only [hx]
        exact ih (c + 1) (texts ++ [s]) _ _

/-- The returned text of `transcribe_audio` is unchanged under any change of
the progress callback (including one that raises on every invocation). -/
lemma transcribeModel_res_cb (d : ℚ) (aw : Except Unit PyVal) (ac : Nat → Except Unit PyVal)
    (ex : Nat → Bool) (cb g : Option (Nat → Nat → Except Unit Unit)) (cs ov : ℚ) :
    (transcribeModel ⟨d, aw, ac, ex, g⟩ cs ov).res
      = (transcribeModel ⟨d, aw, ac, ex, cb⟩ cs ov).res := by
  unfold transcribeModel
  by_cases h : d ≤ cs
  · rw [if_pos h, if_pos h]
  · rw [if_neg h, if_neg h]
    unfold chunkedPath
    rcases hsp : splitLoop ex (List.range (chunkStarts d cs ov).length) [] [] with ⟨tr, r⟩
    rcases r with p | files
    · simp only [hsp]
    · simp only [hsp]
      have h2 : (asrLoop ⟨d, aw, ac, ex, g⟩ (chunkStarts d cs ov).length files 1 [] tr).2
          = (asrLoop ⟨d, aw, ac, ex, cb⟩ (chunkStarts d cs ov).length files 1 [] tr).2 :=
        asrLoop_snd_ext ⟨d, aw, ac, ex, g⟩ ⟨d, aw, ac, ex, cb⟩
          (chunkStarts d cs ov).length rfl files 1 [] tr tr
      rw [h2]
      rcases hr : (asrLoop ⟨d, aw, ac, ex, cb⟩ (chunkStarts d cs ov).length files 1 [] tr).2
        with ce | texts
      · rcases ce with ⟨i, tot⟩ | _ <;> simp only [hr]
      · simp only [hr]
        rcases hst : stitchDefaults texts with _ | s <;> simp only [hst]

/-- C9: for a fixed input (duration, ASR results per chunk and for the whole
file, extraction outcomes), two runs of `transcribe` produce the same result
text — the output is a deterministic function of the collaborator data and in
particular does not depend on the progress callback. -/
theorem transcript_deterministic (env env' : AsrEnv) (cs ov : ℚ)
    (hdur : env.dur = env'.dur) (hwhole : env.asrWhole = env'.asrWhole)
    (hchunk : env.asrChunk = env'.asrChunk) (hext : env.extractOk = env'.extractOk) :
    (transcribeModel env cs ov).res = (transcribeModel env' cs ov).res := by
  rcases env with ⟨d, aw, ac, ex, cb⟩
  rcases env' with ⟨d', aw', ac', ex', cb'⟩
  dsimp only at hdur hwhole hchunk hext
  subst hdur
  subst hwhole
  subst hchunk
  subst hext
  exact transcribeModel_res_cb d aw ac ex cb' cb cs ov

def envDet1 : AsrEnv :=
  ⟨100, .ok (.pystr ("same text".toList)), fun _ => .ok (.pystr []), fun _ => true, none⟩

def envDet2 : AsrEnv :=
  ⟨100, .ok (.pystr ("same text".toList)), fun _ => .ok (.pystr []), fun _ => true,
    some (fun _ _ => .error ())⟩

/-- Witness for C9: two runs over the same collaborator data, one with no
callback and one with an always-raising callback, return the same text. -/
theorem transcript_deterministic_witness :
    (transcribeModel envDet1 240 (6 / 5)).res = (transcribeModel envDet2 240 (6 / 5)).res :=
  transcript_deterministic envDet1 envDet2 240 (6 / 5) rfl rfl rfl rfl

/-- Whether a fallible step succeeded. -/
def exOk {α : Type} : Except Unit α → Bool
  | .ok _ => true
  | .error _ => false

/-- The combined outcome for chunk index `j`: the ASR call followed by
normalization of its result. -/
def chunkTextResult (env : AsrEnv) (j : Nat) : Except Unit Str :=
  match env.asrChunk j with
  | .error e => .error e
  | .ok raw => extractTextSafe (pyOrEmptyDict raw)

/-- When every extraction succeeds, the split loop creates exactly one file
per chunk index and records one extraction event each. -/
lemma splitLoop_all_ok (extractOk : Nat → Bool) (hex : ∀ i, extractOk i = true) :
    ∀ (l : List Nat) (files : List Nat) (tr : List Ev),
      splitLoop extractOk l files tr = (tr ++ l.map Ev.extract, .ok (files ++ l)) := by
  intro l
  induction l with
  | nil => intro files tr; simp [splitLoop]
  | cons i rest ih =>
    intro files tr
    rw [splitLoop, if_pos (hex i), ih]
    simp

/-- If chunks before 1-based position `i` all succeed (ASR and normalization)
and the ASR call raises at position `i`, the chunk loop stops there with the
error carrying `(i, total)`. -/
lemma asrLoop_first_fail (env : AsrEnv) (total i : Nat) :
    ∀ (n a : Nat) (texts : List Str) (tr : List Ev),
      a + 1 ≤ i → i ≤ a + n →
      (∀ j, a ≤ j → j + 1 < i → exOk (chunkTextResult env j) = true) →
      env.asrChunk (i - 1) = .error () →
      (asrLoop env total (List.range' a n) (a + 1) texts tr).2 = .error (.asrFail i total) := by
  intro n
  induction n with
  | zero =>
    intro a texts tr h1 h2 _ _
    omega
  | succ n ih =>
    intro a texts tr h1 h2 hok hfail
    have hr : List.range' a (n + 1) = a :: List.range' (a + 1) n := by
      have h := List.range'_succ a n 1
      simpa using h
    rw [hr]
    by_cases hia : i = a + 1
    · subst hia
      have hfa : env.asrChunk a = .error () := by simpa using hfail
      simp only [asrLoop, hfa]
    · have hlt : a + 1 < i := by omega
      have hoka := hok a le_rfl (by omega)
      rcases hc : env.asrChunk a with e | raw
      · rw [chunkTextResult.eq_def, hc] at hoka
        simp [exOk] at hoka
      · rcases hx : extractTextSafe (pyOrEmptyDict raw) with u | s
        · have hoka2 : exOk (extractTextSafe (pyOrEmptyDict raw)) = true := by
            rw [chunkTextResult.eq_def, hc] at hoka
            simpa using hoka
          rw [hx] at hoka2
          simp [exOk] at hoka2
        · simp only [asrLoop, hc, hx]
          exact ih (a + 1) (texts ++ [s]) _ (by omega) (by omega)
            (fun j hj1 hj2 => hok j (by omega) hj2) hfail

/-- C8: if the ASR collaborator raises on chunk `i` of `n` (all earlier chunks
having succeeded), the whole `transcribe` fails with the error for chunk
`i`/`n` (no partial transcript), the error message contains "i/n", and zero
temporary chunk files remain on disk. -/
theorem chunk_failure_propagation (env : AsrEnv) (cs ov : ℚ) (i : Nat)
    (hD : cs < env.dur)
    (hex : ∀ k, env.extractOk k = true)
    (h1 : 1 ≤ i) (h2 : i ≤ (chunkStarts env.dur cs ov).length)
    (hok : ∀ j, j + 1 < i → exOk (chunkTextResult env j) = true)
    (hfail : env.asrChunk (i - 1) = .error ()) :
    (transcribeModel env cs ov).res
        = .error (.asrChunkFailed i (chunkStarts env.dur cs ov).length)
    ∧ (transcribeModel env cs ov).files = []
    ∧ List.IsInfix ((Nat.repr i).toList ++ '/' :: (Nat.repr (chunkStarts env.dur cs ov).length).toList)
        (errMsg (.asrChunkFailed i (chunkStarts env.dur cs ov).length)) := by
  have hmodel : transcribeModel env cs ov
      = chunkedPath env (chunkStarts env.dur cs ov).length := by
    unfold transcribeModel
    rw [if_neg (not_le.mpr hD)]
  have hsplit : splitLoop env.extractOk (List.range (chunkStarts env.dur cs ov).length) [] []
      = ((List.range (chunkStarts env.dur cs ov).length).map Ev.extract,
          .ok (List.range (chunkStarts env.dur cs ov).length)) := by
    have h := splitLoop_all_ok env.extractOk hex
      (List.range (chunkStarts env.dur cs ov).length) [] []
    simpa using h
  have hloop : (asrLoop env (chunkStarts env.dur cs ov).length
        (List.range (chunkStarts env.dur cs ov).length) 1 []
        ((List.range (chunkStarts env.dur cs ov).length).map Ev.extract)).2
      = .error (.asrFail i (chunkStarts env.dur cs ov).length) := by
    have h := asrLoop_first_fail env (chunkStarts env.dur cs ov).length i
      (chunkStarts env.dur cs ov).length 0 []
      ((List.range (chunkStarts env.dur cs ov).length).map Ev.extract)
      h1 (by omega) (fun j _ hj2 => hok j hj2) hfail
    rw [← List.range_eq_range'] at h
    simpa using h
  have hres : chunkedPath env (chunkStarts env.dur cs ov).length
      = ⟨(asrLoop env (chunkStarts env.dur cs ov).length
            (List.range (chunkStarts env.dur cs ov).length) 1 []
            ((List.range (chunkStarts env.dur cs ov).length).map Ev.extract)).1,
          .error (.asrChunkFailed i (chunkStarts env.dur cs ov).length), []⟩ := by
    unfold chunkedPath
    simp only [hsplit, hloop]
  refine ⟨by rw [hmodel, hres], by rw [hmodel, hres], ?_⟩
  exact ⟨"Transcription failed for chunk ".toList, " (chunk file): error".toList,
    by simp [errMsg, List.append_assoc]⟩

lemma chunkStep_240 : chunkStep 240 (6 / 5) = 1194 / 5 := by
  unfold chunkStep
  rw [max_eq_right (by norm_num : (1 : ℚ) ≤ 240 - 6 / 5)]
  norm_num

lemma chunkStarts_len_1000 : (chunkStarts 1000 240 (6 / 5)).length = 5 := by
  rw [chunkStarts_length, chunkStep_240]
  have h : ⌈(1000 : ℚ) / (1194 / 5)⌉ = 5 := by
    rw [Int.ceil_eq_iff]
    constructor <;> norm_num
  rw [h]
  rfl

lemma chunkStarts_len_500 : (chunkStarts 500 240 (6 / 5)).length = 3 := by
  rw [chunkStarts_length, chunkStep_240]
  have h : ⌈(500 : ℚ) / (1194 / 5)⌉ = 3 := by
    rw [Int.ceil_eq_iff]
    constructor <;> norm_num
  rw [h]
  rfl

lemma chunkStarts_len_250 : (chunkStarts 250 240 (6 / 5)).length = 2 := by
  rw [chunkStarts_length, chunkStep_240]
  have h : ⌈(250 : ℚ) / (1194 / 5)⌉ = 2 := by
    rw [Int.ceil_eq_iff]
    constructor <;> norm_num
  rw [h]
  rfl

def env8 : AsrEnv :=
  ⟨1000, .ok (.pystr []),
    fun j => if j = 1 then .error () else .ok (.pystr ("hello".toList)),
    fun _ => true, none⟩

/-- Witness for C8: a 1000-second source splits into 5 chunks; the ASR stub
fails on chunk 2 of 5; `transcribe` fails with the chunk-2-of-5 error, whose
message contains "2/5", and no temporary files remain. -/
theorem chunk_failure_propagation_witness :
    (240 : ℚ) < 1000
    ∧ (transcribeModel env8 240 (6 / 5)).res = .error (.asrChunkFailed 2 5)
    ∧ (transcribeModel env8 240 (6 / 5)).files = []
    ∧ List.IsInfix ("2/5".toList) (errMsg (.asrChunkFailed 2 5)) := by
  have hlen : (chunkStarts env8.dur 240 (6 / 5)).length = 5 := chunkStarts_len_1000
  have h := chunk_failure_propagation env8 240 (6 / 5) 2
    (by norm_num [env8]) (fun k => rfl) (by norm_num) (by rw [hlen]; norm_num)
    (by
      intro j hj
      have hj0 : j = 0 := by omega
      subst hj0
      decide)
    rfl
  refine ⟨by norm_num, ?_, h.2.1, ?_⟩
  · have h1 := h.1
    rw [hlen] at h1
    exact h1
  · exact ⟨"Transcription failed for chunk ".toList, " (chunk file): error".toList, by decide⟩

def env3 : AsrEnv :=
  ⟨500, .ok (.pystr []), fun _ => .ok (.pystr []), fun k => k == 0, none⟩

/-- C3 (failing input): a 500-second source splits into 3 chunks; ffmpeg
extraction fails on the second chunk (index 1); the error propagates with the
first chunk file still on disk — cleanup is not guaranteed on this exit
path. -/
theorem cleanup_missing_on_extraction_failure :
    (transcribeModel env3 240 (6 / 5)).res = .error (.extractionFailed 1)
    ∧ (transcribeModel env3 240 (6 / 5)).files = [0]
    ∧ (transcribeModel env3 240 (6 / 5)).files ≠ [] := by
  have hmodel : transcribeModel env3 240 (6 / 5) = chunkedPath env3 3 := by
    unfold transcribeModel
    rw [if_neg (by norm_num [env3] : ¬ (env3.dur ≤ (240 : ℚ)))]
    rw [show (chunkStarts env3.dur 240 (6 / 5)).length = 3 from chunkStarts_len_500]
  rw [hmodel]
  exact ⟨rfl, rfl, by decide⟩

def env4 : AsrEnv :=
  ⟨250, .ok (.pystr []), fun _ => .error (), fun _ => true, some (fun _ _ => .ok ())⟩

/-- C4 counterexample: on a 2-chunk source whose very first chunk ASR call
raises, the progress callback is nevertheless invoked with (1, 2) — so the
callback runs *before* chunk 1's ASR call, not after it completes (no chunk
ever completes here). -/
theorem progress_invoked_before_completion :
    Ev.progress 1 2 ∈ (transcribeModel env4 240 (6 / 5)).trace
    ∧ Ev.asrDone 1 ∉ (transcribeModel env4 240 (6 / 5)).trace
    ∧ (transcribeModel env4 240 (6 / 5)).res = .error (.asrChunkFailed 1 2) := by
  have hmodel : transcribeModel env4 240 (6 / 5) = chunkedPath env4 2 := by
    unfold transcribeModel
    rw [if_neg (by norm_num [env4] : ¬ (env4.dur ≤ (240 : ℚ)))]
    rw [show (chunkStarts env4.dur 240 (6 / 5)).length = 2 from chunkStarts_len_250]
  rw [hmodel]
  exact ⟨by decide, by decide, rfl⟩

/-- Modelled from the amended claim: with a callback present, the events for
the chunk at 1-based position `c` are the progress invocation `(c, total)`
followed immediately by the start of that chunk's ASR call; the loop proceeds
past `c` only when the ASR call and its normalization both succeed. -/
def chunkEventsSpec (env : AsrEnv) (total : Nat) : List Nat → Nat → List Ev
  | [], _ => []
  | ch :: rest, c =>
    Ev.progress c total :: Ev.asrStart c ::
      (match env.asrChunk ch with
       | .error _ => []
       | .ok raw =>
         match extractTextSafe (pyOrEmptyDict raw) with
         | .error _ => [Ev.asrDone c]
         | .ok _ => Ev.asrDone c :: chunkEventsSpec env total rest (c + 1))

/-- A present callback is invoked exactly once per iteration, whether or not
it raises. -/
lemma cbCall_some (f : Nat → Nat → Except Unit Unit) (i total : Nat) :
    cbCall (some f) i total = [Ev.progress i total] := by
  unfold cbCall
  rcases h : f i total with u | u <;> simp [h]

lemma asrLoop_trace_cb (env : AsrEnv) (total : Nat) (f : Nat → Nat → Except Unit Unit)
    (hcb : env.cb = some f) :
    ∀ (l : List Nat) (c : Nat) (texts : List Str) (tr : List Ev),
      (asrLoop env total l c texts tr).1 = tr ++ chunkEventsSpec env total l c := by
  intro l
  induction l with
  | nil => intro c texts tr; simp [asrLoop, chunkEventsSpec]
  | cons ch rest ih =>
    intro c texts tr
    simp only [asrLoop, hcb, cbCall_some]
    rcases h : env.asrChunk ch with e | raw
    · simp only [h, chunkEventsSpec]
      simp
    · rcases hx : extractTextSafe (pyOrEmptyDict raw) with u | s
      · simp only [h, hx, chunkEventsSpec]
        simp
      · simp only [h, hx, chunkEventsSpec, ih (c + 1) (texts ++ [s])]
        simp

/-- C4 (amended): on the chunking path with a callback present, the trace is
the chunk extractions followed, for each 1-based chunk position `i`, by the
progress invocation `(i, total)` *immediately before* chunk `i`'s ASR call
(equivalently, after chunk `i-1` completed); and no behaviour of the callback
(including raising) changes the returned result. -/
theorem progress_callback_semantics (env : AsrEnv) (cs ov : ℚ)
    (f : Nat → Nat → Except Unit Unit) (hcb : env.cb = some f)
    (hD : cs < env.dur) (hex : ∀ k, env.extractOk k = true) :
    (transcribeModel env cs ov).trace
      = (List.range (chunkStarts env.dur cs ov).length).map Ev.extract
        ++ chunkEventsSpec env (chunkStarts env.dur cs ov).length
            (List.range (chunkStarts env.dur cs ov).length) 1
    ∧ ∀ g, (transcribeModel { env with cb := g } cs ov).res
        = (transcribeModel env cs ov).res := by
  have hg : ∀ g, (transcribeModel { env with cb := g } cs ov).res
      = (transcribeModel env cs ov).res := by
    intro g
    rcases env with ⟨d, aw, ac, ex, cb⟩
    exact transcribeModel_res_cb d aw ac ex cb g cs ov
  refine ⟨?_, hg⟩
  have hmodel : transcribeModel env cs ov
      = chunkedPath env (chunkStarts env.dur cs ov).length := by
    unfold transcribeModel
    rw [if_neg (not_le.mpr hD)]
  have hsplit : splitLoop env.extractOk (List.range (chunkStarts env.dur cs ov).length) [] []
      = ((List.range (chunkStarts env.dur cs ov).length).map Ev.extract,
          .ok (List.range (chunkStarts env.dur cs ov).length)) := by
    have h := splitLoop_all_ok env.extractOk hex
      (List.range (chunkStarts env.dur cs ov).length) [] []
    simpa using h
  have htr : (chunkedPath env (chunkStarts env.dur cs ov).length).trace
      = (asrLoop env (chunkStarts env.dur cs ov).length
          (List.range (chunkStarts env.dur cs ov).length) 1 []
          ((List.range (chunkStarts env.dur cs ov).length).map Ev.extract)).1 := by
    unfold chunkedPath
    simp only [hsplit]
    rcases hr : (asrLoop env (chunkStarts env.dur cs ov).length
        (List.range (chunkStarts env.dur cs ov).length) 1 []
        ((List.range (chunkStarts env.dur cs ov).length).map Ev.extract)).2 with ce | texts
    · rcases ce with ⟨i, tot⟩ | _ <;> simp only [hr]
    · simp only [hr]
      rcases hst : stitchDefaults texts with _ | s2 <;> simp only [hst]
  rw [hmodel, htr, asrLoop_trace_cb env (chunkStarts env.dur cs ov).length f hcb
    (List.range (chunkStarts env.dur cs ov).length) 1 []
    ((List.range (chunkStarts env.dur cs ov).length).map Ev.extract)]

def envW4 : AsrEnv :=
  ⟨250, .ok (.pystr []), fun _ => .ok (.pystr ("chunk text here".toList)), fun _ => true,
    some (fun _ _ => .ok ())⟩

/-- Witness for C4 (amended) on a 250-second, 2-chunk source. -/
theorem progress_callback_semantics_witness :
    (240 : ℚ) < envW4.dur
    ∧ (transcribeModel envW4 240 (6 / 5)).trace
        = (List.range (chunkStarts envW4.dur 240 (6 / 5)).length).map Ev.extract
          ++ chunkEventsSpec envW4 (chunkStarts envW4.dur 240 (6 / 5)).length
              (List.range (chunkStarts envW4.dur 240 (6 / 5)).length) 1
    ∧ (transcribeModel { envW4 with cb := none } 240 (6 / 5)).res
        = (transcribeModel envW4 240 (6 / 5)).res := by
  have h := progress_callback_semantics envW4 240 (6 / 5) (fun _ _ => .ok ()) rfl
    (by norm_num [envW4]) (fun k => rfl)
  exact ⟨by norm_num [envW4], h.1, h.2 none⟩
